import Mathlib

/-
Verification of the lexical analyzer in `tokenization.h` (class LexicalAnalyzer).
The scanner state (input string, size_t cursor `position`, the `inMultiLineComment`
flag, the token vector and the `cleanedInput` string) is embedded as a structure,
and one iteration of the `while (position < input.length())` loop of `tokenize()`
is embedded as a function `step`.  `size_t` arithmetic is modelled modulo 2^64
(the decrement `position--` in `getNextWord` wraps for position 0).  The C++
code indexes `input[position+1]` without a bounds check at several places; for
`std::string`, reading index `size()` yields the null character and reading any
larger index is undefined.  Reads that replicate those unchecked accesses go
through `look`, which records in two flags whether an access at index = length
(the terminator) or at index > length (undefined behavior) happened.
-/

namespace CPSC323

/-- 2^64, the modulus of `size_t` arithmetic. -/
def SZW : Nat := 18446744073709551616

/-- `size_t` increment `position++`. -/
def inc (p : Nat) : Nat := (p + 1) % SZW

/-- `size_t` addition `position += 2`. -/
def add2 (p : Nat) : Nat := (p + 2) % SZW

/-- `size_t` decrement `position--` (wraps at 0, as unsigned arithmetic does). -/
def dec (p : Nat) : Nat := (p + (SZW - 1)) % SZW

/-- The null character, what `std::string::operator[]` yields at index `size()`. -/
def nul : Char := Char.ofNat 0

/-- Character access `input[i]`; out of range it yields the C++ terminator value. -/
def getC (l : List Char) (i : Nat) : Char := l.getD i nul

/-- Instrumentation for the unchecked `input[position+1]` accesses: `oob` records
an access at an index strictly past the terminator (undefined behavior in C++),
`atEnd` an access at index = length (the terminator itself, defined in C++). -/
structure Flags where
  oob : Bool
  atEnd : Bool
deriving DecidableEq, Repr

/-- An unchecked character access, recording how far past the data it reached. -/
def look (l : List Char) (i : Nat) (f : Flags) : Char × Flags :=
  (getC l i, ⟨f.oob || decide (l.length < i), f.atEnd || decide (i = l.length)⟩)

/-- enum class TokenType. -/
inductive TokenType where
  | KEYWORD
  | IDENTIFIER
  | LITERAL
  | OPERATOR
  | SEPARATOR
  | UNKNOWN
deriving DecidableEq, Repr

/-- struct Token { TokenType type; string value; }. -/
structure Token where
  type : TokenType
  value : List Char
deriving DecidableEq, Repr

/-- The keys inserted by `initKeywords` (every one maps to TokenType::KEYWORD,
and the lookup `keywords.find(word) != keywords.end()` only tests key presence). -/
def keywords : List (List Char) :=
  ["int".data, "float".data, "if".data, "else".data, "while".data, "return".data,
   "string".data, "do".data, "void".data, "cout".data, "endl".data, "for".data,
   "#include".data, "using".data, "namespace".data, "std".data, "iostream".data,
   "fstream".data, "vector".data]

/-- `keywords.find(word) != keywords.end()`. -/
def kwContains (w : List Char) : Bool := keywords.contains w

/-- bool isWhitespace(char c). -/
def isWhitespace (c : Char) : Bool := c == ' ' || c == '\t' || c == '\n' || c == '\r'

/-- bool isAlpha(char c). -/
def isAlpha (c : Char) : Bool :=
  (decide ('a' ≤ c) && decide (c ≤ 'z')) || (decide ('A' ≤ c) && decide (c ≤ 'Z'))

/-- bool isDigit(char c). -/
def isDigit (c : Char) : Bool := decide ('0' ≤ c) && decide (c ≤ '9')

/-- bool isAlphaNumeric(char c). -/
def isAlphaNumeric (c : Char) : Bool := isAlpha c || isDigit c

/-- `input.substr(start, cnt)` for in-range `start`. -/
def substr (l : List Char) (start cnt : Nat) : List Char := (l.drop start).take cnt

/-- The scan loop of `getNextWord`:
`while (position < input.length() && isAlphaNumeric(input[position]) && input[position] != '_') position++;`
The loop advances by one while it runs, so fuel `input.length + 1` never runs out
for inputs of `size_t` size. -/
def wordLoop (l : List Char) : Nat → Nat → Nat
  | 0, p => p
  | fuel + 1, p =>
    if decide (p < l.length) && isAlphaNumeric (getC l p) && !(getC l p == '_') then
      wordLoop l fuel (inc p)
    else p

/-- string getNextWord().  After the scan loop, if the stop position is in range
at a non-alphanumeric character, the code compares the `size_t` position with the
character '_' (promoted to 95), looks one past it if the comparison holds, takes
the substring, decrements the cursor and returns; otherwise (the word ran to the
end of the input) it returns the empty string with the cursor untouched. -/
def getNextWord (l : List Char) (pos : Nat) (f : Flags) : List Char × Nat × Flags :=
  let p := wordLoop l (l.length + 1) pos
  if decide (p < l.length) && !(isAlphaNumeric (getC l p)) then
    if p == 95 then
      let c1 := look l (inc p) f
      let p2 := if isAlphaNumeric c1.1 then inc p else p
      (substr l pos (p2 - pos), dec p2, c1.2)
    else
      (substr l pos (p - pos), dec p, f)
  else ([], p, f)

/-- The scan loop of `getNextNumber`: digits and at most one '.', a second '.'
breaks without being consumed. -/
def numLoop (l : List Char) : Nat → Nat → Bool → Nat
  | 0, p, _ => p
  | fuel + 1, p, hasDec =>
    if decide (p < l.length) && (isDigit (getC l p) || getC l p == '.') then
      if getC l p == '.' then
        if hasDec then p else numLoop l fuel (inc p) true
      else numLoop l fuel (inc p) hasDec
    else p

/-- string getNextNumber(). -/
def getNextNumber (l : List Char) (pos : Nat) : List Char × Nat :=
  let p := numLoop l (l.length + 1) pos false
  (substr l pos (p - pos), p)

/-- The `while` loop of the `isAlpha(currentChar) || currentChar == '_'` branch of
`tokenize` (reachable only for '_', since the preceding branch catches letters):
it accumulates alphanumeric or underscore characters. -/
def usLoop (l : List Char) : Nat → Nat → List Char → List Char × Nat
  | 0, p, acc => (acc, p)
  | fuel + 1, p, acc =>
    if decide (p < l.length) && (isAlphaNumeric (getC l p) || getC l p == '_') then
      usLoop l fuel (inc p) (acc ++ [getC l p])
    else (acc, p)

/-- The string-literal loop of `tokenize`: consume until an unescaped '"';
a backslash sets the one-step escape flag and is dropped. -/
def strLoop (l : List Char) : Nat → Nat → Bool → List Char → List Char × Nat
  | 0, p, _, acc => (acc, p)
  | fuel + 1, p, esc, acc =>
    if decide (p < l.length) then
      if getC l p == '"' && !esc then (acc, inc p)
      else if getC l p == '\\' then strLoop l fuel (inc p) true acc
      else strLoop l fuel (inc p) false (acc ++ [getC l p])
    else (acc, p)

/-- The single-line-comment skip loop:
`while (position < input.length() && input[position] != '\n') position++;`. -/
def slcLoop (l : List Char) : Nat → Nat → Nat
  | 0, p => p
  | fuel + 1, p =>
    if decide (p < l.length) && !(getC l p == '\n') then slcLoop l fuel (inc p)
    else p

/-- The scanner state of `LexicalAnalyzer` during `tokenize()`. -/
structure St where
  input : List Char
  pos : Nat
  inMLC : Bool
  tokens : List Token
  cleaned : List Char
  flags : Flags
deriving DecidableEq, Repr

/-- The tail of the `if (!inMultiLineComment)` dispatch: single-character
operators, separators, string literals, and the unknown-character fallback. -/
def restDispatch (s : St) (cc : Char) : St :=
  if cc == '+' || cc == '-' || cc == '*' || cc == '=' || cc == '<' || cc == '>' ||
      cc == '^' || cc == '/' then
    { s with tokens := s.tokens ++ [⟨.OPERATOR, [cc]⟩], cleaned := s.cleaned ++ [cc],
             pos := inc s.pos }
  else if cc == '(' || cc == ')' || cc == '\x7b' || cc == '\x7d' || cc == ',' ||
      cc == ';' then
    { s with tokens := s.tokens ++ [⟨.SEPARATOR, [cc]⟩], cleaned := s.cleaned ++ [cc],
             pos := inc s.pos }
  else if cc == '"' then
    let r := strLoop s.input (s.input.length + 1) (inc s.pos) false []
    let s1 := if !r.1.isEmpty then { s with tokens := s.tokens ++ [⟨.LITERAL, r.1⟩] } else s
    { s1 with cleaned := s1.cleaned ++ ['"'] ++ r.1 ++ ['"'], pos := r.2 }
  else
    { s with tokens := s.tokens ++ [⟨.UNKNOWN, [cc]⟩], cleaned := s.cleaned ++ [cc],
             pos := inc s.pos }

/-- The `if (!inMultiLineComment)` dispatch of `tokenize`, including the
unconditional `position++` that closes the block.  `cc` is the cached
`currentChar` read at the start of the iteration.  The two branches of the
`number.find('.')` test in the source both emit a LITERAL token, so they are
embedded as the single literal emission. -/
def dispatch (s : St) (cc : Char) : St :=
  let s1 :=
    if isAlpha cc then
      let r := getNextWord s.input s.pos s.flags
      let ty := if kwContains r.1 then TokenType.KEYWORD else TokenType.IDENTIFIER
      { s with tokens := s.tokens ++ [⟨ty, r.1⟩], cleaned := s.cleaned ++ r.1,
               pos := r.2.1, flags := r.2.2 }
    else if isAlpha cc || cc == '_' then
      let r := usLoop s.input (s.input.length + 1) s.pos []
      { s with tokens := s.tokens ++ [⟨.IDENTIFIER, r.1⟩], cleaned := s.cleaned ++ r.1,
               pos := r.2 }
    else if isDigit cc then
      let r := getNextNumber s.input s.pos
      { s with tokens := s.tokens ++ [⟨.LITERAL, r.1⟩], cleaned := s.cleaned ++ r.1,
               pos := r.2 }
    else if cc == '<' then
      let c1 := look s.input (inc s.pos) s.flags
      if c1.1 == '<' then
        { s with tokens := s.tokens ++ [⟨.OPERATOR, ['<', '<']⟩],
                 cleaned := s.cleaned ++ ['<', '<'], pos := add2 s.pos, flags := c1.2 }
      else restDispatch { s with flags := c1.2 } cc
    else if cc == '>' then
      let c1 := look s.input (inc s.pos) s.flags
      if c1.1 == '>' then
        { s with tokens := s.tokens ++ [⟨.OPERATOR, ['>', '>']⟩],
                 cleaned := s.cleaned ++ ['>', '>'], pos := add2 s.pos, flags := c1.2 }
      else restDispatch { s with flags := c1.2 } cc
    else restDispatch s cc
  { s1 with pos := inc s1.pos }

/-- The multi-line-comment-end check (`inMultiLineComment && currentChar == '*'
&& input[position+1] == '/'`) followed by the guarded dispatch. -/
def afterComments (s : St) (cc : Char) : St :=
  let s1 :=
    if s.inMLC then
      if cc == '*' then
        let c1 := look s.input (inc s.pos) s.flags
        if c1.1 == '/' then { s with inMLC := false, pos := add2 s.pos, flags := c1.2 }
        else { s with flags := c1.2 }
      else s
    else s
  if s1.inMLC then s1 else dispatch s1 cc

/-- One iteration of the main loop of `tokenize()`: whitespace skip, the
unconditional `#`-directive check, comment-start checks (the single-line branch
ends the iteration with `continue`), comment-end check and dispatch. -/
def step (s0 : St) : St :=
  let cc := getC s0.input s0.pos
  if isWhitespace cc then { s0 with pos := inc s0.pos }
  else
    let s1 :=
      if cc == '#' then
        let r := getNextWord s0.input s0.pos s0.flags
        { s0 with tokens := s0.tokens ++ [⟨.KEYWORD, r.1⟩], cleaned := s0.cleaned ++ r.1,
                  pos := r.2.1, flags := r.2.2 }
      else s0
    if cc == '/' then
      let c1 := look s1.input (inc s1.pos) s1.flags
      if c1.1 == '*' then
        afterComments { s1 with inMLC := true, pos := add2 s1.pos, flags := c1.2 } cc
      else
        let c2 := look s1.input (inc s1.pos) c1.2
        if c2.1 == '/' then
          { s1 with pos := slcLoop s1.input (s1.input.length + 1) s1.pos, flags := c2.2 }
        else afterComments { s1 with flags := c2.2 } cc
    else afterComments s1 cc

/-- The main loop `while (position < input.length())`, with fuel: `none` means
the fuel ran out before the loop finished. -/
def run : Nat → St → Option St
  | 0, _ => none
  | fuel + 1, s => if s.pos < s.input.length then run fuel (step s) else some s

/-- The state constructed by `LexicalAnalyzer(const string& source)`. -/
def initSt (l : List Char) : St := ⟨l, 0, false, [], [], ⟨false, false⟩⟩

/-- `tokenize()` run to completion (fuel generous for every terminating scan of
the concrete inputs below); `none` when the scan does not finish. -/
def tokenize (l : List Char) : Option (List Token) :=
  (run (4 * l.length + 16) (initSt l)).map St.tokens

/-- The `cleanedInput` accumulated by a complete scan. -/
def cleanedOut (l : List Char) : Option (List Char) :=
  (run (4 * l.length + 16) (initSt l)).map St.cleaned

/-- No LITERAL token of the list carries a backslash in its lexeme. -/
def noBS (ts : List Token) : Prop :=
  ∀ t ∈ ts, t.type = TokenType.LITERAL → '\\' ∉ t.value

/- ### General lemmas about the loop -/

theorem run_stuck (n : Nat) (s : St) (hlt : s.pos < s.input.length) (hfix : step s = s) :
    run n s = none := by
  induction n generalizing s with
  | zero => rfl
  | succ n ih =>
    rw [run, if_pos hlt, hfix]
    exact ih s hlt hfix

theorem run_mono (n : Nat) : ∀ (m : Nat) (s r : St), run n s = some r → n ≤ m →
    run m s = some r := by
  induction n with
  | zero => intro m s r h; exact absurd h (by simp [run])
  | succ n ih =>
    intro m s r h hnm
    match m, hnm with
    | m + 1, hnm =>
      rw [run] at h ⊢
      by_cases hp : s.pos < s.input.length
      · rw [if_pos hp] at h ⊢
        exact ih m (step s) r h (Nat.le_of_succ_le_succ hnm)
      · rw [if_neg hp] at h ⊢
        exact h

/- ### The undefined-behavior flag is never set -/

theorem getC_lt_of_ne_nul {l : List Char} {i : Nat} (h : getC l i ≠ nul) :
    i < l.length := by
  by_contra hi
  exact h (List.getD_eq_default l nul (Nat.le_of_not_lt hi))

theorem inc_le {p n : Nat} (h : p < n) : inc p ≤ n :=
  Nat.le_trans (Nat.mod_le _ _) h

theorem look_oob {l : List Char} {i : Nat} {f : Flags} (h : i ≤ l.length) :
    ((look l i f).2).oob = f.oob := by
  simp [look, decide_eq_false (Nat.not_lt.mpr h)]

theorem getNextWord_oob (l : List Char) (p : Nat) (f : Flags) :
    ((getNextWord l p f).2.2).oob = f.oob := by
  simp only [getNextWord]
  split
  next h =>
    have hlt : wordLoop l (l.length + 1) p < l.length := by
      have := (Bool.and_eq_true _ _).mp h
      exact of_decide_eq_true this.1
    split
    next =>
      show ((look l (inc (wordLoop l (l.length + 1) p)) f).2).oob = f.oob
      exact look_oob (inc_le hlt)
    next => rfl
  next => rfl

theorem restDispatch_flags (s : St) (cc : Char) :
    (restDispatch s cc).flags = s.flags := by
  simp only [restDispatch]
  split
  · rfl
  · split
    · rfl
    · split
      · split <;> rfl
      · rfl

theorem dispatch_oob (s : St) (cc : Char)
    (h : cc = '<' ∨ cc = '>' → s.pos < s.input.length) :
    (dispatch s cc).flags.oob = s.flags.oob := by
  simp only [dispatch]
  split
  next => exact getNextWord_oob _ _ _
  next =>
    split
    next => rfl
    next =>
      split
      next => rfl
      next =>
        split
        next hlt =>
          have hpos : s.pos < s.input.length := h (Or.inl (eq_of_beq hlt))
          split
          next =>
            show ((look s.input (inc s.pos) s.flags).2).oob = s.flags.oob
            exact look_oob (inc_le hpos)
          next =>
            rw [restDispatch_flags]
            show ((look s.input (inc s.pos) s.flags).2).oob = s.flags.oob
            exact look_oob (inc_le hpos)
        next =>
          split
          next hgt =>
            have hpos : s.pos < s.input.length := h (Or.inr (eq_of_beq hgt))
            split
            next =>
              show ((look s.input (inc s.pos) s.flags).2).oob = s.flags.oob
              exact look_oob (inc_le hpos)
            next =>
              rw [restDispatch_flags]
              show ((look s.input (inc s.pos) s.flags).2).oob = s.flags.oob
              exact look_oob (inc_le hpos)
          next => rw [restDispatch_flags]

theorem afterComments_oob (s : St) (cc : Char)
    (h : cc = '*' ∨ cc = '<' ∨ cc = '>' → s.pos < s.input.length) :
    (afterComments s cc).flags.oob = s.flags.oob := by
  simp only [afterComments]
  by_cases hm : s.inMLC = true
  · rw [if_pos hm]
    by_cases hc : (cc == '*') = true
    · rw [if_pos hc]
      have hcc := eq_of_beq hc
      subst hcc
      have hpos : s.pos < s.input.length := h (Or.inl rfl)
      have hoob : ((look s.input (inc s.pos) s.flags).2).oob = s.flags.oob :=
        look_oob (inc_le hpos)
      split
      next =>
        rw [if_neg (by simp)]
        rw [dispatch_oob _ _ (fun hx => absurd hx (by decide))]
        exact hoob
      next => exact hoob
    · rw [if_neg hc]
      rw [if_pos hm]
  · rw [if_neg hm]
    rw [if_neg hm]
    exact dispatch_oob s cc (fun hcc => h (Or.inr hcc))

theorem step_oob (s0 : St) : (step s0).flags.oob = s0.flags.oob := by
  simp only [step]
  by_cases hw : isWhitespace (getC s0.input s0.pos) = true
  · rw [if_pos hw]
  · rw [if_neg hw]
    by_cases hh : (getC s0.input s0.pos == '#') = true
    · rw [if_pos hh]
      have hsl : (getC s0.input s0.pos == '/') = false := by
        rw [eq_of_beq hh]; decide
      rw [if_neg (by simp [hsl])]
      rw [afterComments_oob _ _ (fun hx => by
        rcases hx with hx | hx | hx <;> rw [eq_of_beq hh] at hx <;> exact absurd hx (by decide))]
      exact getNextWord_oob _ _ _
    · rw [if_neg hh]
      by_cases hs : (getC s0.input s0.pos == '/') = true
      · rw [if_pos hs]
        have hpos : s0.pos < s0.input.length :=
          getC_lt_of_ne_nul (by rw [eq_of_beq hs]; decide)
        have hoob1 : ((look s0.input (inc s0.pos) s0.flags).2).oob = s0.flags.oob :=
          look_oob (inc_le hpos)
        split
        next =>
          rw [afterComments_oob _ _ (fun hx => by
            rcases hx with hx | hx | hx <;> rw [eq_of_beq hs] at hx <;>
              exact absurd hx (by decide))]
          exact hoob1
        next =>
          have hoob2 : ((look s0.input (inc s0.pos)
              (look s0.input (inc s0.pos) s0.flags).2).2).oob = s0.flags.oob := by
            rw [look_oob (inc_le hpos)]; exact hoob1
          split
          next => exact hoob2
          next =>
            rw [afterComments_oob _ _ (fun hx => by
              rcases hx with hx | hx | hx <;> rw [eq_of_beq hs] at hx <;>
                exact absurd hx (by decide))]
            exact hoob2
      · rw [if_neg hs]
        rw [afterComments_oob _ _ (fun hx => by
          refine getC_lt_of_ne_nul (i := s0.pos) ?_
          rcases hx with hx | hx | hx <;> rw [hx] <;> decide)]

theorem run_oob (fuel : Nat) : ∀ s r : St, run fuel s = some r →
    r.flags.oob = s.flags.oob := by
  induction fuel with
  | zero => intro s r h; exact absurd h (by simp [run])
  | succ n ih =>
    intro s r h
    rw [run] at h
    by_cases hp : s.pos < s.input.length
    · rw [if_pos hp] at h
      rw [ih _ _ h, step_oob]
    · rw [if_neg hp] at h
      cases h
      rfl

/- ### The input is never modified -/

theorem restDispatch_input (s : St) (cc : Char) : (restDispatch s cc).input = s.input := by
  simp only [restDispatch]
  repeat' split
  all_goals rfl

theorem dispatch_input (s : St) (cc : Char) : (dispatch s cc).input = s.input := by
  simp only [dispatch]
  repeat' split
  all_goals first | rfl | rw [restDispatch_input]

theorem afterComments_input (s : St) (cc : Char) : (afterComments s cc).input = s.input := by
  simp only [afterComments]
  repeat' split
  all_goals first | rfl | rw [dispatch_input]

theorem step_input (s0 : St) : (step s0).input = s0.input := by
  simp only [step]
  repeat' split
  all_goals first | rfl | rw [afterComments_input]

/- ### No backslash ever enters a LITERAL lexeme -/

theorem take_mem_getD (c : Char) : ∀ (x : List Char) (b : Nat), c ∈ x.take b →
    ∃ j, j < b ∧ x.getD j nul = c := by
  intro x
  induction x with
  | nil => intro b h; simp at h
  | cons y ys ih =>
    intro b h
    cases b with
    | zero => simp at h
    | succ b =>
      rcases List.mem_cons.mp (by simpa using h) with h | h
      · exact ⟨0, Nat.succ_pos _, by simp [h.symm]⟩
      · rcases ih b h with ⟨j, hj1, hj3⟩
        refine ⟨j + 1, Nat.succ_lt_succ hj1, ?_⟩
        rw [List.getD_cons_succ]
        exact hj3

theorem getD_drop (l : List Char) : ∀ (a j : Nat),
    (l.drop a).getD j nul = l.getD (a + j) nul := by
  induction l with
  | nil => intro a j; simp
  | cons y ys ih =>
    intro a j
    cases a with
    | zero => simp
    | succ a =>
      have hshift : a + 1 + j = (a + j) + 1 := by omega
      rw [hshift, List.drop_succ_cons, List.getD_cons_succ]
      exact ih a j

theorem mem_substr {l : List Char} {a b : Nat} {c : Char} (h : c ∈ substr l a b) :
    ∃ i, a ≤ i ∧ i < a + b ∧ getC l i = c := by
  rcases take_mem_getD c (l.drop a) b h with ⟨j, hj1, hj3⟩
  refine ⟨a + j, Nat.le_add_right _ _, Nat.add_lt_add_left hj1 _, ?_⟩
  rw [getC, ← getD_drop]
  exact hj3

theorem numLoop_chars (l : List Char) (hl : l.length < SZW) :
    ∀ (fuel : Nat) (p : Nat) (hd : Bool) (i : Nat), p ≤ i → i < numLoop l fuel p hd →
      isDigit (getC l i) = true ∨ getC l i = '.' := by
  intro fuel
  induction fuel with
  | zero =>
    intro p hd i hpi hi
    rw [numLoop] at hi
    omega
  | succ n ih =>
    intro p hd i hpi hi
    rw [numLoop] at hi
    split at hi
    next hg =>
      have hplen : p < l.length := of_decide_eq_true ((Bool.and_eq_true _ _).mp hg).1
      have hdp : isDigit (getC l p) = true ∨ getC l p = '.' := by
        rcases (Bool.or_eq_true _ _).mp ((Bool.and_eq_true _ _).mp hg).2 with h | h
        · exact Or.inl h
        · exact Or.inr (eq_of_beq h)
      have hinc : inc p = p + 1 := Nat.mod_eq_of_lt (by omega)
      rcases Nat.eq_or_lt_of_le hpi with rfl | hlt
      · exact hdp
      · split at hi
        next =>
          split at hi
          next => omega
          next =>
            rw [hinc] at hi
            exact ih (p + 1) true i hlt hi
        next =>
          rw [hinc] at hi
          exact ih (p + 1) hd i hlt hi
    next => omega

theorem getNextNumber_no_bs (l : List Char) (p : Nat) (hl : l.length < SZW) :
    '\\' ∉ (getNextNumber l p).1 := by
  intro hmem
  simp only [getNextNumber] at hmem
  rcases mem_substr hmem with ⟨i, hpi, hib, hc⟩
  by_cases hpq : p ≤ numLoop l (l.length + 1) p false
  · rw [Nat.add_sub_cancel' hpq] at hib
    rcases numLoop_chars l hl (l.length + 1) p false i hpi hib with h | h
    · rw [hc] at h
      exact absurd h (by decide)
    · rw [hc] at h
      exact absurd h (by decide)
  · rw [Nat.sub_eq_zero_of_le (Nat.le_of_lt (Nat.lt_of_not_le hpq))] at hib
    omega

theorem strLoop_no_bs (l : List Char) : ∀ (fuel p : Nat) (esc : Bool) (acc : List Char),
    '\\' ∉ acc → '\\' ∉ (strLoop l fuel p esc acc).1 := by
  intro fuel
  induction fuel with
  | zero => intro p esc acc hacc; simpa [strLoop] using hacc
  | succ n ih =>
    intro p esc acc hacc
    rw [strLoop]
    split
    next =>
      split
      next => simpa using hacc
      next =>
        split
        next => exact ih (inc p) true acc hacc
        next hbs =>
          refine ih (inc p) false (acc ++ [getC l p]) ?_
          intro hm
          rcases List.mem_append.mp hm with hm | hm
          · exact hacc hm
          · rcases List.mem_singleton.mp hm with hm
            exact absurd (beq_iff_eq.mpr hm.symm) (by simpa using hbs)
    next => simpa using hacc

theorem noBS_append {ts : List Token} (t : Token) (h : noBS ts)
    (hnew : t.type = TokenType.LITERAL → '\\' ∉ t.value) : noBS (ts ++ [t]) := by
  intro x hx
  rcases List.mem_append.mp hx with hx | hx
  · exact h x hx
  · rcases List.mem_singleton.mp hx with rfl
    exact hnew

theorem ite_kw_ne_literal (c : Bool) :
    (if c = true then TokenType.KEYWORD else TokenType.IDENTIFIER) ≠ TokenType.LITERAL := by
  cases c <;> simp

theorem restDispatch_noBS (s : St) (cc : Char) (h : noBS s.tokens) :
    noBS (restDispatch s cc).tokens := by
  simp only [restDispatch]
  repeat' split
  all_goals
    first
      | exact h
      | exact noBS_append _ h (fun hty => TokenType.noConfusion hty)
      | exact noBS_append _ h (fun _ =>
          strLoop_no_bs s.input (s.input.length + 1) (inc s.pos) false []
            (List.not_mem_nil _))

theorem dispatch_noBS (s : St) (cc : Char) (hl : s.input.length < SZW)
    (h : noBS s.tokens) : noBS (dispatch s cc).tokens := by
  simp only [dispatch]
  repeat' split
  all_goals
    first
      | exact h
      | exact restDispatch_noBS _ _ h
      | exact noBS_append _ h (fun hty => TokenType.noConfusion hty)
      | exact noBS_append _ h (fun hty => absurd hty (ite_kw_ne_literal _))
      | exact noBS_append _ h (fun _ => getNextNumber_no_bs s.input s.pos hl)

theorem afterComments_noBS (s : St) (cc : Char) (hl : s.input.length < SZW)
    (h : noBS s.tokens) : noBS (afterComments s cc).tokens := by
  simp only [afterComments]
  repeat' split
  all_goals
    first
      | exact h
      | exact dispatch_noBS _ _ hl h

theorem step_noBS (s0 : St) (hl : s0.input.length < SZW) (h : noBS s0.tokens) :
    noBS (step s0).tokens := by
  have hks : noBS (s0.tokens ++
      [Token.mk TokenType.KEYWORD (getNextWord s0.input s0.pos s0.flags).1]) :=
    noBS_append _ h (fun hty => TokenType.noConfusion hty)
  simp only [step]
  repeat' split
  all_goals
    first
      | exact h
      | exact hks
      | exact afterComments_noBS _ _ hl h
      | exact afterComments_noBS _ _ hl hks

theorem run_noBS (fuel : Nat) : ∀ s r : St, run fuel s = some r →
    s.input.length < SZW → noBS s.tokens → noBS r.tokens := by
  induction fuel with
  | zero => intro s r hrun; exact absurd hrun (by simp [run])
  | succ n ih =>
    intro s r hrun hl hs
    rw [run] at hrun
    by_cases hp : s.pos < s.input.length
    · rw [if_pos hp] at hrun
      exact ih _ _ hrun (by rw [step_input]; exact hl) (step_noBS s hl hs)
    · rw [if_neg hp] at hrun
      cases hrun
      exact hs

/- ### The word branch on a word followed by a terminator -/

theorem alnum_ne_us {ch : Char} (h : isAlphaNumeric ch = true) : (ch == '_') = false := by
  by_contra hb
  rw [Bool.not_eq_false] at hb
  rw [eq_of_beq hb] at h
  exact absurd h (by decide)

theorem isAlpha_beq_false {c : Char} (h : isAlpha c = true) (x : Char)
    (hx : isAlpha x = false) : (c == x) = false := by
  by_contra hb
  rw [Bool.not_eq_false] at hb
  rw [eq_of_beq hb, hx] at h
  exact Bool.false_ne_true h

theorem alpha_ws_false {c : Char} (h : isAlpha c = true) : isWhitespace c = false := by
  rw [isWhitespace,
    isAlpha_beq_false h ' ' (by decide), isAlpha_beq_false h '\t' (by decide),
    isAlpha_beq_false h '\n' (by decide), isAlpha_beq_false h '\r' (by decide)]
  rfl

theorem wordLoop_scan (l : List Char) (hW : l.length < SZW) :
    ∀ (fuel k stop : Nat), k ≤ stop → stop ≤ l.length →
      (∀ i, k ≤ i → i < stop → isAlphaNumeric (getC l i) = true) →
      (stop = l.length ∨ isAlphaNumeric (getC l stop) = false) →
      stop - k < fuel →
      wordLoop l fuel k = stop := by
  intro fuel
  induction fuel with
  | zero => intro k stop _ _ _ _ hf; omega
  | succ m ih =>
    intro k stop hks hsl hmid hstop hf
    rw [wordLoop]
    rcases Nat.eq_or_lt_of_le hks with rfl | hlt
    · have hcond : (decide (k < l.length) && isAlphaNumeric (getC l k) &&
          !(getC l k == '_')) = false := by
        rcases hstop with hs | hs
        · simp [hs]
        · simp [hs]
      rw [hcond]
      simp
    · have hkl : k < l.length := Nat.lt_of_lt_of_le hlt hsl
      have ha : isAlphaNumeric (getC l k) = true := hmid k (Nat.le_refl _) hlt
      have hcond : (decide (k < l.length) && isAlphaNumeric (getC l k) &&
          !(getC l k == '_')) = true := by
        simp [hkl, ha, alnum_ne_us ha]
      rw [hcond]
      have hinck : inc k = k + 1 := Nat.mod_eq_of_lt (by omega)
      simp only [if_pos]
      rw [hinck]
      exact ih (k + 1) stop hlt hsl (fun i h1 h2 => hmid i (by omega) h2) hstop (by omega)

theorem step_alpha (s : St) (hml : s.inMLC = false)
    (hc : isAlpha (getC s.input s.pos) = true) :
    step s = dispatch s (getC s.input s.pos) := by
  simp [step, afterComments, alpha_ws_false hc,
    isAlpha_beq_false hc '#' (by decide), isAlpha_beq_false hc '/' (by decide), hml]

theorem dispatch_word (s : St) (cc : Char) (hc : isAlpha cc = true) :
    dispatch s cc =
      { s with
        tokens := s.tokens ++
          [⟨if kwContains (getNextWord s.input s.pos s.flags).1 then TokenType.KEYWORD
             else TokenType.IDENTIFIER, (getNextWord s.input s.pos s.flags).1⟩],
        cleaned := s.cleaned ++ (getNextWord s.input s.pos s.flags).1,
        pos := inc (getNextWord s.input s.pos s.flags).2.1,
        flags := (getNextWord s.input s.pos s.flags).2.2 } := by
  simp [dispatch, hc]

theorem getNextWord_word (l : List Char) (p stop : Nat) (f : Flags)
    (hW : l.length < SZW) (hps : p ≤ stop) (hsl : stop < l.length)
    (hmid : ∀ i, p ≤ i → i < stop → isAlphaNumeric (getC l i) = true)
    (hstop : isAlphaNumeric (getC l stop) = false)
    (hstop1 : isAlphaNumeric (getC l (stop + 1)) = false) :
    (getNextWord l p f).1 = substr l p (stop - p) ∧
      (getNextWord l p f).2.1 = dec stop := by
  have hSZ : SZW = 18446744073709551616 := rfl
  have hwl : wordLoop l (l.length + 1) p = stop :=
    wordLoop_scan l hW (l.length + 1) p stop hps (Nat.le_of_lt hsl) hmid
      (Or.inr hstop) (by omega)
  have hcond : (decide (stop < l.length) && !(isAlphaNumeric (getC l stop))) = true := by
    simp [hsl, hstop]
  have hincs : inc stop = stop + 1 := Nat.mod_eq_of_lt (by omega)
  have hlookf : isAlphaNumeric (look l (inc stop) f).1 = false := by
    show isAlphaNumeric (getC l (inc stop)) = false
    rw [hincs]
    exact hstop1
  by_cases h95 : stop = 95
  · subst h95
    constructor <;> simp [getNextWord, hwl, hcond, hlookf]
  · have hb95 : (stop == 95) = false := by
      simp [h95]
    constructor <;> simp [getNextWord, hwl, hcond, hb95]

/-- C1: the claim says `tokenize` terminates on every input.  It does not: on
the input `/*a*/` the iteration at position 2 (the character `a`, inside a
multi-line comment) matches no branch that advances the cursor, so the main loop
repeats the same state forever and `run` returns `none` for every amount of
fuel. -/
theorem comment_scan_diverges :
    tokenize "/*a*/".data = none ∧ ∀ fuel, run fuel (initSt "/*a*/".data) = none := by
  have key : ∀ fuel, run fuel (initSt "/*a*/".data) = none := by
    intro fuel
    cases fuel with
    | zero => rfl
    | succ n =>
      have h1 : step (initSt "/*a*/".data) =
          ⟨"/*a*/".data, 2, true, [], [], ⟨false, false⟩⟩ := by decide
      rw [run, if_pos (by decide), h1]
      exact run_stuck n _ (by decide) (by decide)
  exact ⟨by rw [tokenize, key]; rfl, key⟩

/-- C2 counterexample: on the input `/`, the comment lookahead
`input[position+1]` reads index 1 = length (the `std::string` terminator), so
in an Option-indexed embedding the out-of-bounds branch is reached: the claim
that every lookahead stays at in-bounds indices is false. -/
theorem lookahead_reads_end_index :
    (run 2 (initSt "/".data)).map (fun s => s.flags.atEnd) = some true ∧
    tokenize "/".data = some [⟨.OPERATOR, "/".data⟩] := by
  exact ⟨by decide, by decide⟩

/-- C2 amended: every character access of the scan stays at an index of at most
the input length.  The unchecked lookaheads do reach index = length exactly (the
`std::string` terminator, whose read is defined in C++ and yields the null
character), but no access ever happens at an index strictly beyond the
terminator: for every input and any complete run, the undefined-behavior flag —
set by any access at index > length — is still false. -/
theorem no_read_strictly_past_end (l : List Char) (fuel : Nat) (s : St)
    (h : run fuel (initSt l) = some s) : s.flags.oob = false := by
  rw [run_oob fuel _ _ h]
  rfl

/-- Witness for `no_read_strictly_past_end` at the input `/` (where the
lookahead touches index = length): the final state of that run has
`oob = false`. -/
theorem no_read_strictly_past_end_witness :
    (St.mk "/".data 2 false [⟨.OPERATOR, ['/']⟩] ['/'] ⟨false, true⟩).flags.oob = false :=
  no_read_strictly_past_end "/".data 2
    (St.mk "/".data 2 false [⟨.OPERATOR, ['/']⟩] ['/'] ⟨false, true⟩) (by decide)

/-- C3 counterexample: tokenizing `<<=` does not yield `Operator("<<")` followed
by `Operator("=")`. -/
theorem shift_assign_not_two_tokens :
    tokenize "<<=".data ≠
      some [⟨.OPERATOR, "<<".data⟩, ⟨.OPERATOR, "=".data⟩] := by decide

/-- C3 amended: tokenizing `<<=` yields exactly `Operator("<<")` — the `<<`
branch advances the cursor by two and the unconditional advance at the end of
the loop body then skips the `=`, so no token at all is emitted for it (and in
particular `Operator("<")` is not emitted twice). -/
theorem shift_assign_actual :
    tokenize "<<=".data = some [⟨.OPERATOR, "<<".data⟩] := by decide

/-- C4 counterexample: in `1+1` the number sub-scan leaves the cursor one past
the literal `1` already, so the outer loop's unconditional advance lands two
past it and the `+` is skipped — no `Operator("+")` token is emitted. -/
theorem subscan_skips_next_char :
    tokenize "1+1".data ≠
      some [⟨.LITERAL, "1".data⟩, ⟨.OPERATOR, "+".data⟩, ⟨.LITERAL, "1".data⟩] := by decide

/-- C4 amended: only the word branch (which backs the cursor up one) ends one
past its lexeme once the outer loop's unconditional advance is added, as
`ab cd ` shows; the number, two-character-operator and string-literal branches
end two past their lexemes, skipping the next input character (`1+1` loses the
`+`, `>>=` loses the `=`, `"a"b` loses the `b`). -/
theorem subscan_cursor_behavior :
    tokenize "ab cd ".data = some [⟨.IDENTIFIER, "ab".data⟩, ⟨.IDENTIFIER, "cd".data⟩] ∧
    tokenize "1+1".data = some [⟨.LITERAL, "1".data⟩, ⟨.LITERAL, "1".data⟩] ∧
    tokenize ">>=".data = some [⟨.OPERATOR, ">>".data⟩] ∧
    tokenize "\"a\"b".data = some [⟨.LITERAL, "a".data⟩] :=
  ⟨by decide, by decide, by decide, by decide⟩

/-- C5 counterexample: `int` is in the keyword table and begins alphabetic, yet
scanning the input `int` yields a single `Identifier` token (with empty lexeme):
a word that runs to the end of the input is returned by `getNextWord` as the
empty string, which is not in the table. -/
theorem keyword_at_eof_misclassified :
    tokenize "int".data = some [⟨.IDENTIFIER, []⟩] ∧ kwContains "int".data = true :=
  ⟨by decide, by decide⟩

/-- C5 amended: for an alphabetic-led alphanumeric word that is followed by a
terminator inside the input (here a space), the scan emits exactly that word,
as `Keyword` iff it is in the fixed table (whose membership test is exactly the
19-entry list built by `initKeywords`) and as `Identifier` otherwise.  A word
that instead runs to the end of the input is emitted as an `Identifier` with
empty lexeme, so the claim only holds for words with an in-input terminator. -/
theorem word_classification_amended (c : Char) (w : List Char)
    (hc : isAlpha c = true)
    (hall : ∀ x ∈ c :: w, isAlphaNumeric x = true)
    (hW : (c :: w).length + 1 < SZW) :
    tokenize ((c :: w) ++ [' ']) =
      some [⟨if kwContains (c :: w) then TokenType.KEYWORD else TokenType.IDENTIFIER,
        c :: w⟩] ∧
    (kwContains (c :: w) = true ↔ (c :: w) ∈ keywords) := by
  refine ⟨?_, List.elem_iff⟩
  have hSZ : SZW = 18446744073709551616 := rfl
  have hlc : (c :: w).length = w.length + 1 := rfl
  have hlen : ((c :: w) ++ [' ']).length = (c :: w).length + 1 := by simp
  have hWl : ((c :: w) ++ [' ']).length < SZW := by omega
  have hend : getC ((c :: w) ++ [' ']) (c :: w).length = ' ' := by
    rw [getC, List.getD_append_right _ _ _ _ (Nat.le_refl _)]
    simp
  have hend1 : getC ((c :: w) ++ [' ']) ((c :: w).length + 1) = nul := by
    rw [getC]
    exact List.getD_eq_default _ _ (by omega)
  have hmid : ∀ i, 0 ≤ i → i < (c :: w).length →
      isAlphaNumeric (getC ((c :: w) ++ [' ']) i) = true := by
    intro i _ hi
    rw [getC, List.getD_append _ _ _ _ hi, List.getD_eq_getElem _ _ hi]
    exact hall _ (List.getElem_mem hi)
  have hgw := getNextWord_word ((c :: w) ++ [' ']) 0 (c :: w).length ⟨false, false⟩ hWl
    (Nat.zero_le _) (by omega) hmid (by rw [hend]; decide) (by rw [hend1]; decide)
  have htake : substr ((c :: w) ++ [' ']) 0 ((c :: w).length - 0) = c :: w := by
    rw [substr]
    simp

  have hdecn : dec (c :: w).length = (c :: w).length - 1 := by
    rw [dec]
    have h1 : (c :: w).length + (SZW - 1) = ((c :: w).length - 1) + SZW := by omega
    rw [h1, Nat.add_mod_right]
    exact Nat.mod_eq_of_lt (by omega)
  have hincdec : inc (dec (c :: w).length) = (c :: w).length := by
    rw [hdecn, inc]
    have h2 : (c :: w).length - 1 + 1 = (c :: w).length := by omega
    rw [h2]
    exact Nat.mod_eq_of_lt (by omega)
  have hc0 : getC ((c :: w) ++ [' ']) 0 = c := rfl
  have hca : isAlpha (getC (initSt ((c :: w) ++ [' '])).input
      (initSt ((c :: w) ++ [' '])).pos) = true := by
    show isAlpha (getC ((c :: w) ++ [' ']) 0) = true
    rw [hc0]
    exact hc
  have hstep1 : step (initSt ((c :: w) ++ [' '])) =
      ⟨(c :: w) ++ [' '], (c :: w).length, false,
        [⟨if kwContains (c :: w) then TokenType.KEYWORD else TokenType.IDENTIFIER,
          c :: w⟩], c :: w,
        (getNextWord ((c :: w) ++ [' ']) 0 ⟨false, false⟩).2.2⟩ := by
    rw [step_alpha _ rfl hca, dispatch_word _ _ hca]
    simp only [initSt]
    simp only [hgw.1, hgw.2, htake, hincdec]
    simp
  have hstep2 : ∀ (ts : List Token) (cl : List Char) (fl : Flags),
      step ⟨(c :: w) ++ [' '], (c :: w).length, false, ts, cl, fl⟩ =
        ⟨(c :: w) ++ [' '], (c :: w).length + 1, false, ts, cl, fl⟩ := by
    intro ts cl fl
    have hincn : inc (c :: w).length = (c :: w).length + 1 := Nat.mod_eq_of_lt (by omega)
    have hend2 : getC (c :: (w ++ [' '])) (w.length + 1) = ' ' := by
      simpa using hend
    have hincn2 : inc (w.length + 1) = w.length + 1 + 1 := by
      simpa using hincn
    simp [step, hend2, hincn2, isWhitespace]
  have hrun : run 3 (initSt ((c :: w) ++ [' '])) =
      some ⟨(c :: w) ++ [' '], (c :: w).length + 1, false,
        [⟨if kwContains (c :: w) then TokenType.KEYWORD else TokenType.IDENTIFIER,
          c :: w⟩], c :: w,
        (getNextWord ((c :: w) ++ [' ']) 0 ⟨false, false⟩).2.2⟩ := by
    rw [run, if_pos (by simp [initSt]), hstep1, run, if_pos (by simp), hstep2,
      run, if_neg (by simp)]
  have h3le : 3 ≤ 4 * ((c :: w) ++ [' ']).length + 16 := by omega
  rw [tokenize, run_mono 3 _ _ _ hrun h3le]
  rfl

/-- Witness for `word_classification_amended` at the keyword `int` followed by a
space. -/
theorem word_classification_amended_witness :
    tokenize (('i' :: ['n', 't']) ++ [' ']) =
      some [⟨if kwContains ('i' :: ['n', 't']) then TokenType.KEYWORD
        else TokenType.IDENTIFIER, 'i' :: ['n', 't']⟩] ∧
    (kwContains ('i' :: ['n', 't']) = true ↔ ('i' :: ['n', 't']) ∈ keywords) :=
  word_classification_amended 'i' ['n', 't'] (by decide) (by decide) (by decide)

/-- C6 counterexample: after the literal `3.14` of `3.14.15`, the second `.` is
not reprocessed by the main loop — neither an `Unknown` nor an `Operator` token
is emitted for it. -/
theorem second_dot_not_reprocessed :
    tokenize "3.14.15".data ≠
      some [⟨.LITERAL, "3.14".data⟩, ⟨.UNKNOWN, ".".data⟩, ⟨.LITERAL, "15".data⟩] ∧
    tokenize "3.14.15".data ≠
      some [⟨.LITERAL, "3.14".data⟩, ⟨.OPERATOR, ".".data⟩, ⟨.LITERAL, "15".data⟩] :=
  ⟨by decide, by decide⟩

/-- C6 amended: `123` and `3.14` scan to the literals `123` and `3.14`; in
`3.14.15` the number sub-scan stops at (without consuming) the second `.`, and
that dot is then skipped by the outer loop's unconditional advance, so scanning
resumes at the `1` after it and the output is `Literal("3.14")` followed by
`Literal("15")`, with no token for the second dot. -/
theorem literal_scanning_amended :
    tokenize "123".data = some [⟨.LITERAL, "123".data⟩] ∧
    tokenize "3.14".data = some [⟨.LITERAL, "3.14".data⟩] ∧
    tokenize "3.14.15".data = some [⟨.LITERAL, "3.14".data⟩, ⟨.LITERAL, "15".data⟩] :=
  ⟨by decide, by decide, by decide⟩

/-- C7: re-scanning the cleaned text does not reproduce the category sequence
even without any comment in the input: `ab` scans to a single
`Identifier`-category token (with empty lexeme, because a word that runs to the
end of the input is returned as the empty string) and its cleaned text is
empty, whose re-scan yields no tokens at all. -/
theorem rescan_categories_differ :
    tokenize "ab".data = some [⟨.IDENTIFIER, []⟩] ∧
    cleanedOut "ab".data = some [] ∧
    tokenize [] = some [] :=
  ⟨by decide, by decide, by decide⟩

/-- C9: whenever the scan (outside a multi-line comment) stands on a double
quote immediately followed by another double quote, the iteration emits no
token — the token list is unchanged — while the cleaned text is still extended
with the empty quoted pair `""`. -/
theorem empty_string_literal_frame (s : St) (h1 : s.inMLC = false)
    (h2 : s.input.length < SZW) (h3 : s.pos + 1 < s.input.length)
    (h4 : getC s.input s.pos = '"') (h5 : getC s.input (s.pos + 1) = '"') :
    (step s).tokens = s.tokens ∧ (step s).cleaned = s.cleaned ++ ['"', '"'] := by
  have hinc : inc s.pos = s.pos + 1 := Nat.mod_eq_of_lt (Nat.lt_trans h3 h2)
  constructor <;>
    simp [step, h4, h1, h3, h5, hinc, afterComments, dispatch, restDispatch, strLoop,
      isWhitespace, isAlpha, isDigit, isAlphaNumeric]

/-- Witness for `empty_string_literal_frame` at the input `""` from its initial
state. -/
theorem empty_string_literal_frame_witness :
    (step (initSt "\"\"".data)).tokens = (initSt "\"\"".data).tokens ∧
    (step (initSt "\"\"".data)).cleaned = (initSt "\"\"".data).cleaned ++ ['"', '"'] :=
  empty_string_literal_frame (initSt "\"\"".data) (by decide) (by decide) (by decide)
    (by decide) (by decide)

/-- C8: when the input ends before a closing quote, the scan recovers silently:
`"abc` (a double quote followed by `abc`) yields the single token
`Literal("abc")` holding the partial content collected so far. -/
theorem unterminated_string_recovery :
    tokenize "\"abc".data = some [⟨.LITERAL, "abc".data⟩] := by decide

/-- C10: no `LITERAL` token ever carries a backslash in its lexeme: the number
sub-scan only collects digits and dots, and in the string-literal loop a
backslash only sets the one-step escape flag and is dropped from the collected
text (and from the cleaned text, which re-wraps the same collected text in
quotes).  Stated for every complete run from an initial state whose input has a
`size_t`-sized length. -/
theorem literal_lexeme_no_backslash (l : List Char) (fuel : Nat) (s : St)
    (hl : l.length < SZW) (h : run fuel (initSt l) = some s) :
    ∀ t ∈ s.tokens, t.type = TokenType.LITERAL → '\\' ∉ t.value :=
  run_noBS fuel (initSt l) s h hl (fun t ht => absurd ht (List.not_mem_nil t))

/-- Witness for `literal_lexeme_no_backslash` on the 6-character input
`"a\"b"` (quote, a, backslash, quote, b — with no closing quote): the scan of it
emits the single literal `a"b`, and the theorem yields that this lexeme holds no
backslash. -/
theorem literal_lexeme_no_backslash_witness :
    '\\' ∉ (Token.mk TokenType.LITERAL ['a', '"', 'b']).value :=
  literal_lexeme_no_backslash ['"', 'a', '\\', '"', 'b'] 9
    (St.mk ['"', 'a', '\\', '"', 'b'] 6 false [⟨.LITERAL, ['a', '"', 'b']⟩]
      ['"', 'a', '"', 'b', '"'] ⟨false, false⟩)
    (by decide) (by decide) ⟨.LITERAL, ['a', '"', 'b']⟩ (by decide) rfl

end CPSC323
